import Mathlib

/-!
# Verification of the flexget event framework (`flexget/event.py`)

A shallow embedding of the priority-ordered publish/subscribe registry in
`flexget/event.py`, together with proofs about its operations:

* `add_event_handler`  — registration with duplicate detection,
* `get_events`         — strict sorted lookup (`sort(reverse=True)` in place),
* `remove_event_handler` / `remove_event_handlers` — removal,
* `fire_event`         — the firing protocol with first-argument chaining.

Python specifics modelled explicitly:

* `_events` is a `defaultdict(list)`: *subscript* access (`_events[k]`) creates
  an empty entry for a missing key, while `in` membership tests and
  `.pop(k, None)` do not.  `ensureKey` models subscript access.
* Python's `list.sort(reverse=True)` is the unique stable descending sort;
  the comparison used is `Event.__lt__`, which compares only `priority`.
  `sortDesc` below is insertion sort placing an element before every later
  element of lower-or-equal priority, which computes exactly that unique
  stable descending permutation.
* `list.remove(x)` removes the first element `y` with `y == x`, and
  `Event.__eq__` compares only `priority` — so `remove` deletes the first
  record *of equal priority*, not necessarily `x` itself (`removeFirstEq`).
* Callables are opaque: a `Func` carries an identity token `id` (Python
  object identity, used by both `==` and `is` on plain functions), the
  diagnostic `name` (`__name__`), and a behaviour `run` mapping positional
  and keyword arguments to either a raised exception or a returned value
  (`none` models Python's `None`, the "no value" sentinel).
* Exceptions are values of `PyErr`; `Except.error` models a raise
  propagating out of the operation.  `fire_event` returning `args and args[0]`
  yields the first positional argument if any, and the falsy empty tuple
  (modelled as `none`) otherwise.
-/

/-- Values passed as positional / keyword arguments and returned by handlers.
(A Python `None` *return* is the sentinel and is modelled by `Option.none`
at the return type, not by a `Value`.) -/
inductive Value : Type
  | int (n : Int)
  | str (s : String)
  deriving DecidableEq, Repr

/-- Keyword arguments: name/value pairs, passed through unchanged. -/
abbrev KwArgs := List (String × Value)

/-- Exceptions.  `keyError` / `valueError` are raised by the registry itself;
`exc` is an arbitrary exception raised by a handler. -/
inductive PyErr : Type
  | keyError (msg : String)
  | valueError (msg : String)
  | exc (tag : String)
  deriving DecidableEq, Repr

/-- An event-type identifier: a member of the `EventType` enum (carrying its
member name and string value) or an ad-hoc string, as in
`Union[EventType, str]`.  Distinct constructors model that an enum member and
its value string are distinct dictionary keys in Python. -/
inductive EventTypeId : Type
  | known (name : String) (value : String)
  | custom (s : String)
  deriving DecidableEq, Repr

/-- How an `EventTypeId` renders inside an f-string (`f'... {event_type}'`):
`str(EventType.x)` is `'EventType.x'`; a plain string renders as itself. -/
def keyStr : EventTypeId → String
  | .known n _ => "EventType." ++ n
  | .custom s => s

/-- `event_type.value if isinstance(event_type, EventType) else event_type`,
as computed in `Event.__init__` for the `name` field. -/
def keyName : EventTypeId → String
  | .known _ v => v
  | .custom s => s

/-- An opaque Python callable: `id` is object identity (what `is` and the
default `==` compare on plain functions), `name` is `__name__`, and `run` is
its behaviour at fire time. -/
structure Func : Type where
  id : Nat
  name : String
  run : List Value → KwArgs → Except PyErr (Option Value)

/-- `class Event`: one registered handler record. -/
structure Event : Type where
  event_type : EventTypeId
  name : String
  func : Func
  priority : Int

/-- `Event.__init__(event_type, func, priority)`. -/
def mkEvent (event_type : EventTypeId) (func : Func) (priority : Int) : Event :=
  { event_type := event_type, name := keyName event_type, func := func,
    priority := priority }

/-- The registry `_events`: an insertion-ordered mapping from event-type id to
its list of `Event` records (Python dicts preserve insertion order). -/
abbrev Registry := List (EventTypeId × List Event)

/-- Dictionary lookup (no entry creation): the value stored under `k`. -/
def findEntry (r : Registry) (k : EventTypeId) : Option (List Event) :=
  (r.find? (fun p => p.1 == k)).map (fun p => p.2)

/-- Store `v` under `k`: replace the existing entry in place, else append. -/
def setEntry : Registry → EventTypeId → List Event → Registry
  | [], k, v => [(k, v)]
  | (k', v') :: rest, k, v =>
    if k' == k then (k, v) :: rest else (k', v') :: setEntry rest k v

/-- `_events.pop(k, None)`: drop the entry for `k` if present. -/
def eraseEntry : Registry → EventTypeId → Registry
  | [], _ => []
  | (k', v') :: rest, k =>
    if k' == k then rest else (k', v') :: eraseEntry rest k

/-- Subscript access `_events[k]` on the `defaultdict(list)`: returns the
stored list, *creating an empty entry if the key is missing*. -/
def ensureKey (r : Registry) (k : EventTypeId) : List Event × Registry :=
  match findEntry r k with
  | some l => (l, r)
  | none => ([], setEntry r k [])

/-- One step of Python's stable descending `list.sort(reverse=True)`:
insert `x` before the first later element of lower-or-equal priority
(equal-priority elements already in the list stay in front of `x` only if
they come from earlier positions; `sortDesc` inserts in original order, so
ties keep their original relative order). -/
def insertDesc (x : Event) : List Event → List Event
  | [] => [x]
  | y :: ys => if y.priority ≤ x.priority then x :: y :: ys else y :: insertDesc x ys

/-- `list.sort(reverse=True)` under `Event.__lt__` (priority comparison):
the unique permutation that is non-increasing in priority and keeps
equal-priority elements in their original relative order. -/
def sortDesc : List Event → List Event
  | [] => []
  | x :: xs => insertDesc x (sortDesc xs)

/-- `get_events(event_type)`: raise `KeyError(f'No such event {event_type}')`
when the key is absent (membership test: no entry creation); otherwise sort
the stored list in place, descending by priority, and return it.  The second
component is the registry after the in-place sort. -/
def get_events (r : Registry) (k : EventTypeId) :
    Except PyErr (List Event) × Registry :=
  match findEntry r k with
  | none => (.error (.keyError ("No such event " ++ keyStr k)), r)
  | some l => (.ok (sortDesc l), setEntry r k (sortDesc l))

/-- `add_event_handler(event_type, func, priority)`: the loop head
`for event_ in _events[event_type]` first performs a defaultdict access
(`ensureKey`); if any stored record's `func == func` (object identity for
plain functions), raise `ValueError` with the diagnostic message; otherwise
construct the `Event`, append it, and return it. -/
def add_event_handler (r : Registry) (k : EventTypeId) (f : Func) (p : Int) :
    Except PyErr Event × Registry :=
  let lr := ensureKey r k
  if lr.1.any (fun e => e.func.id == f.id) then
    (.error (.valueError (f.name ++
      " has already been registered as event listener under name " ++ keyStr k)),
     lr.2)
  else
    let ev := mkEvent k f p
    (.ok ev, setEntry lr.2 k (lr.1 ++ [ev]))

/-- `remove_event_handlers(event_type)`: `_events.pop(event_type, None)`. -/
def remove_event_handlers (r : Registry) (k : EventTypeId) : Registry :=
  eraseEntry r k

/-- `list.remove(x)` where list elements compare by `Event.__eq__`
(priority only): delete the first element of equal priority.  (Python raises
`ValueError` when nothing matches; at every call site `x` is an element of
the list and `x == x`, so that branch is unreachable and modelled as
a no-op.) -/
def removeFirstEq (x : Event) : List Event → List Event
  | [] => []
  | y :: ys => if y.priority == x.priority then ys else y :: removeFirstEq x ys

theorem removeFirstEq_length_le (x : Event) (l : List Event) :
    (removeFirstEq x l).length ≤ l.length := by
  induction l with
  | nil => simp [removeFirstEq]
  | cons y ys ih =>
    simp only [removeFirstEq]
    by_cases h : y.priority == x.priority
    · rw [if_pos h]
      simp
    · rw [if_neg h]
      simp only [List.length_cons]
      have := ih
      omega

/-- The loop body of `remove_event_handler`: Python iterates by index over the
list *while mutating it*; when index `i` holds a record whose `func is func`,
`list.remove` (priority-equality!) deletes the first equal-priority record and
iteration continues at index `i + 1` of the mutated list.  The loop runs while
`i < length`; `i` grows by one each step and the length never grows, so
`length - i` strictly decreases: a fuel of the initial length suffices, and
the fuel-exhausted branch coincides with the loop's normal exit (see
`iterRemoveAux_fuel_irrel`). -/
def iterRemoveAux (f : Func) : Nat → List Event → Nat → List Event
  | 0, l, _ => l
  | fuel + 1, l, i =>
    if h : i < l.length then
      if (l.get ⟨i, h⟩).func.id == f.id then
        iterRemoveAux f fuel (removeFirstEq (l.get ⟨i, h⟩) l) (i + 1)
      else iterRemoveAux f fuel l (i + 1)
    else l

/-- The removal loop of `remove_event_handler`, started at index 0. -/
def iterRemove (f : Func) (l : List Event) : List Event :=
  iterRemoveAux f l.length l 0

/-- The fuel is never exhausted while `i < length`: any fuel at least
`length - i` computes the same result, so `iterRemove` is the exact loop. -/
theorem iterRemoveAux_fuel_irrel (f : Func) :
    ∀ (n m : Nat) (l : List Event) (i : Nat),
      l.length - i ≤ n → l.length - i ≤ m →
      iterRemoveAux f n l i = iterRemoveAux f m l i := by
  intro n
  induction n with
  | zero =>
    intro m l i hn _
    have hge : ¬ i < l.length := by omega
    cases m with
    | zero => rfl
    | succ m => simp [iterRemoveAux, hge]
  | succ n ih =>
    intro m l i hn hm
    cases m with
    | zero =>
      have hge : ¬ i < l.length := by omega
      simp [iterRemoveAux, hge]
    | succ m =>
      simp only [iterRemoveAux]
      by_cases h : i < l.length
      · rw [dif_pos h, dif_pos h]
        by_cases hid : (l.get ⟨i, h⟩).func.id == f.id
        · rw [if_pos hid, if_pos hid]
          have hlen := removeFirstEq_length_le (l.get ⟨i, h⟩) l
          exact ih m _ (i + 1) (by omega) (by omega)
        · rw [if_neg hid, if_neg hid]
          exact ih m l (i + 1) (by omega) (by omega)
      · rw [dif_neg h, dif_neg h]

/-- `remove_event_handler(event_type, func)`: the loop head
`for e in _events[event_type]` performs a defaultdict access (creating an
empty entry for an unknown key), then runs the mutating removal loop. -/
def remove_event_handler (r : Registry) (k : EventTypeId) (f : Func) : Registry :=
  let lr := ensureKey r k
  setEntry lr.2 k (iterRemove f lr.1)

/-- `args = (result,) + args[1:]` when a handler returns a non-`None` value;
`args` unchanged otherwise. -/
def chainStep (args : List Value) (res : Option Value) : List Value :=
  match res with
  | none => args
  | some v => v :: args.drop 1

/-- One observed handler invocation during a fire: which callable was invoked
and with which positional and keyword arguments. -/
structure Call : Type where
  funcId : Nat
  args : List Value
  kwargs : KwArgs
  deriving DecidableEq, Repr

/-- The handler loop of `fire_event`: invoke each handler in order with the
current `args`/`kwargs`; a raised exception propagates immediately; a
non-`None` return value replaces the first positional argument for the rest.
Returns the final `args` (or the propagated exception) together with the log
of invocations actually performed. -/
def fireLoop : List Event → List Value → KwArgs →
    Except PyErr (List Value) × List Call
  | [], args, _ => (.ok args, [])
  | h :: hs, args, kw =>
    let call : Call := ⟨h.func.id, args, kw⟩
    match h.func.run args kw with
    | .error e => (.error e, [call])
    | .ok res =>
      let rest := fireLoop hs (chainStep args res) kw
      (rest.1, call :: rest.2)

/-- `fire_event(event_type, *args, **kwargs)`: if the event type is absent
(membership test, no entry creation) no handler runs; otherwise the handlers
are fetched via `get_events` (in-place re-sort) and invoked in order.  The
final `return args and args[0]` yields the first positional argument when
`args` is non-empty and the falsy empty tuple (`none`) otherwise.  Returns
the result (or propagated handler exception), the invocation log, and the
updated registry. -/
def fire_event (r : Registry) (k : EventTypeId) (args : List Value)
    (kw : KwArgs) : Except PyErr (Option Value) × List Call × Registry :=
  if (findEntry r k).isSome then
    match get_events r k with
    | (.error e, r') => (.error e, [], r')
    | (.ok handlers, r') =>
      match fireLoop handlers args kw with
      | (.error e, calls) => (.error e, calls, r')
      | (.ok finalArgs, calls) => (.ok finalArgs.head?, calls, r')
  else
    (.ok args.head?, [], r)

/-! ## Registry lemmas -/

/-- The keys of the registry, in insertion order. -/
def regKeys (r : Registry) : List EventTypeId := r.map Prod.fst

/-- Well-formedness of the mapping: no duplicate keys (always true of a
Python dict). -/
def keysNodup (r : Registry) : Prop := (regKeys r).Nodup

instance (r : Registry) : Decidable (keysNodup r) := by
  unfold keysNodup
  infer_instance

theorem findEntry_nil (k : EventTypeId) : findEntry [] k = none := rfl

theorem findEntry_cons (k' : EventTypeId) (v' : List Event) (rest : Registry)
    (k : EventTypeId) :
    findEntry ((k', v') :: rest) k =
      if k' = k then some v' else findEntry rest k := by
  by_cases h : k' = k
  · simp [findEntry, List.find?, h]
  · have hb : (k' == k) = false := by simpa using h
    simp [findEntry, List.find?, hb, h]

theorem setEntry_cons (k' : EventTypeId) (v' : List Event) (rest : Registry)
    (k : EventTypeId) (v : List Event) :
    setEntry ((k', v') :: rest) k v =
      if k' = k then (k, v) :: rest else (k', v') :: setEntry rest k v := by
  by_cases h : k' = k
  · simp [setEntry, h]
  · have hb : (k' == k) = false := by simpa using h
    simp [setEntry, hb, h]

theorem eraseEntry_cons (k' : EventTypeId) (v' : List Event) (rest : Registry)
    (k : EventTypeId) :
    eraseEntry ((k', v') :: rest) k =
      if k' = k then rest else (k', v') :: eraseEntry rest k := by
  by_cases h : k' = k
  · simp [eraseEntry, h]
  · have hb : (k' == k) = false := by simpa using h
    simp [eraseEntry, hb, h]

theorem findEntry_setEntry_self (r : Registry) (k : EventTypeId)
    (v : List Event) : findEntry (setEntry r k v) k = some v := by
  induction r with
  | nil => simp [setEntry, findEntry_cons]
  | cons p rest ih =>
    obtain ⟨k', v'⟩ := p
    rw [setEntry_cons]
    by_cases h : k' = k
    · rw [if_pos h, findEntry_cons, if_pos rfl]
    · rw [if_neg h, findEntry_cons, if_neg h]
      exact ih

theorem findEntry_setEntry_ne (r : Registry) (k k' : EventTypeId)
    (v : List Event) (h : k' ≠ k) :
    findEntry (setEntry r k v) k' = findEntry r k' := by
  induction r with
  | nil =>
    rw [show setEntry [] k v = [(k, v)] from rfl, findEntry_cons,
      if_neg (Ne.symm h), findEntry_nil]
  | cons p rest ih =>
    obtain ⟨k₀, v₀⟩ := p
    rw [setEntry_cons]
    by_cases hk : k₀ = k
    · rw [if_pos hk, findEntry_cons, if_neg (Ne.symm h), findEntry_cons,
        if_neg (hk ▸ (Ne.symm h))]
    · rw [if_neg hk, findEntry_cons, findEntry_cons, ih]

theorem setEntry_findEntry_eq (r : Registry) (k : EventTypeId)
    (v : List Event) (h : findEntry r k = some v) : setEntry r k v = r := by
  induction r with
  | nil => simp [findEntry_nil] at h
  | cons p rest ih =>
    obtain ⟨k', v'⟩ := p
    rw [findEntry_cons] at h
    rw [setEntry_cons]
    by_cases hk : k' = k
    · rw [if_pos hk] at h
      rw [if_pos hk, hk]
      simp at h
      rw [h]
    · rw [if_neg hk] at h
      rw [if_neg hk, ih h]

theorem eraseEntry_not_mem (r : Registry) (k : EventTypeId)
    (h : findEntry r k = none) : eraseEntry r k = r := by
  induction r with
  | nil => rfl
  | cons p rest ih =>
    obtain ⟨k', v'⟩ := p
    rw [findEntry_cons] at h
    rw [eraseEntry_cons]
    by_cases hk : k' = k
    · rw [if_pos hk] at h
      simp at h
    · rw [if_neg hk] at h
      rw [if_neg hk, ih h]

theorem findEntry_not_mem_keys (r : Registry) (k : EventTypeId)
    (h : k ∉ regKeys r) : findEntry r k = none := by
  induction r with
  | nil => rfl
  | cons p rest ih =>
    obtain ⟨k', v'⟩ := p
    simp [regKeys] at h
    rw [findEntry_cons, if_neg (Ne.symm h.1)]
    exact ih (by simp [regKeys, h.2])

theorem findEntry_eraseEntry_self (r : Registry) (k : EventTypeId)
    (hnd : keysNodup r) : findEntry (eraseEntry r k) k = none := by
  induction r with
  | nil => rfl
  | cons p rest ih =>
    obtain ⟨k', v'⟩ := p
    have hnd0 : k' ∉ rest.map Prod.fst ∧ keysNodup rest := by
      simpa [keysNodup, regKeys] using hnd
    rw [eraseEntry_cons]
    by_cases hk : k' = k
    · rw [if_pos hk]
      exact findEntry_not_mem_keys rest k
        (fun hm => hnd0.1 (by rw [hk]; exact hm))
    · rw [if_neg hk, findEntry_cons, if_neg hk]
      exact ih hnd0.2

theorem findEntry_eraseEntry_ne (r : Registry) (k k' : EventTypeId)
    (h : k' ≠ k) : findEntry (eraseEntry r k) k' = findEntry r k' := by
  induction r with
  | nil => rfl
  | cons p rest ih =>
    obtain ⟨k₀, v₀⟩ := p
    rw [eraseEntry_cons]
    by_cases hk : k₀ = k
    · rw [if_pos hk, findEntry_cons, if_neg (hk ▸ (Ne.symm h))]
    · rw [if_neg hk, findEntry_cons, findEntry_cons, ih]

/-! ## Sorting lemmas: permutation, sortedness, stability -/

theorem insertDesc_perm (x : Event) (l : List Event) :
    (insertDesc x l).Perm (x :: l) := by
  induction l with
  | nil => simp [insertDesc]
  | cons y ys ih =>
    by_cases h : y.priority ≤ x.priority
    · simp [insertDesc, h]
    · simp only [insertDesc, if_neg h]
      exact ((ih.cons y).trans (List.Perm.swap x y ys))

theorem sortDesc_perm (l : List Event) : (sortDesc l).Perm l := by
  induction l with
  | nil => simp [sortDesc]
  | cons x xs ih =>
    exact (insertDesc_perm x (sortDesc xs)).trans (ih.cons x)

/-- Non-increasing priority: the order produced by `sort(reverse=True)`. -/
abbrev SortedDesc (l : List Event) : Prop :=
  List.Pairwise (fun a b => b.priority ≤ a.priority) l

theorem insertDesc_sorted (x : Event) (l : List Event) (hs : SortedDesc l) :
    SortedDesc (insertDesc x l) := by
  induction l with
  | nil =>
    simp only [insertDesc]
    exact List.pairwise_singleton _ _
  | cons y ys ih =>
    rcases List.pairwise_cons.mp hs with ⟨hy, hys⟩
    simp only [insertDesc]
    by_cases h : y.priority ≤ x.priority
    · rw [if_pos h]
      refine List.pairwise_cons.mpr ⟨?_, hs⟩
      intro b hb
      rcases List.mem_cons.mp hb with hb' | hb'
      · subst hb'
        omega
      · have := hy b hb'
        omega
    · rw [if_neg h]
      refine List.pairwise_cons.mpr ⟨?_, ih hys⟩
      intro b hb
      rcases List.mem_cons.mp ((insertDesc_perm x ys).mem_iff.mp hb)
        with hb' | hb'
      · subst hb'
        omega
      · exact hy b hb'

theorem sortDesc_sorted (l : List Event) : SortedDesc (sortDesc l) := by
  induction l with
  | nil => exact List.Pairwise.nil
  | cons x xs ih => exact insertDesc_sorted x (sortDesc xs) ih

/-- Stability, phrased on priority classes: inserting `x` does not disturb the
subsequence of elements with any priority other than `x`'s. -/
theorem insertDesc_filter_ne (x : Event) (l : List Event) (p : Int)
    (hx : x.priority ≠ p) :
    (insertDesc x l).filter (fun e => e.priority == p) =
      l.filter (fun e => e.priority == p) := by
  induction l with
  | nil => simp [insertDesc, List.filter_cons, hx]
  | cons y ys ih =>
    simp only [insertDesc]
    by_cases h : y.priority ≤ x.priority
    · rw [if_pos h]
      simp [List.filter_cons, hx]
    · rw [if_neg h]
      simp only [List.filter_cons]
      by_cases hy : y.priority = p
      · simp [hy, ih]
      · simp [hy, ih]

/-- Stability: inserting `x` places it in front of the elements of its own
priority class (it only walks past strictly higher priorities). -/
theorem insertDesc_filter_eq (x : Event) (l : List Event) (p : Int)
    (hx : x.priority = p) :
    (insertDesc x l).filter (fun e => e.priority == p) =
      x :: l.filter (fun e => e.priority == p) := by
  induction l with
  | nil => simp [insertDesc, List.filter_cons, hx]
  | cons y ys ih =>
    simp only [insertDesc]
    by_cases h : y.priority ≤ x.priority
    · rw [if_pos h]
      simp [List.filter_cons, hx]
    · rw [if_neg h]
      have hy : y.priority ≠ p := by omega
      simp [List.filter_cons, hy, ih]

/-- Stability of the full sort: each priority class comes out in its original
relative order. -/
theorem sortDesc_filter (l : List Event) (p : Int) :
    (sortDesc l).filter (fun e => e.priority == p) =
      l.filter (fun e => e.priority == p) := by
  induction l with
  | nil => rfl
  | cons x xs ih =>
    by_cases hx : x.priority = p
    · rw [sortDesc, insertDesc_filter_eq x (sortDesc xs) p hx, ih]
      simp [List.filter_cons, hx]
    · rw [sortDesc, insertDesc_filter_ne x (sortDesc xs) p hx, ih]
      simp [List.filter_cons, hx]

/-! ## `ensureKey` and `chainStep` lemmas -/

theorem ensureKey_some (r : Registry) (k : EventTypeId) (l : List Event)
    (h : findEntry r k = some l) : ensureKey r k = (l, r) := by
  simp [ensureKey, h]

theorem ensureKey_none (r : Registry) (k : EventTypeId)
    (h : findEntry r k = none) : ensureKey r k = ([], setEntry r k []) := by
  simp [ensureKey, h]

theorem chainStep_drop (args : List Value) (res : Option Value) :
    (chainStep args res).drop 1 = args.drop 1 := by
  cases res <;> simp [chainStep]

theorem chainStep_ne_nil (args : List Value) (res : Option Value)
    (h : args ≠ []) : chainStep args res ≠ [] := by
  cases res <;> simp [chainStep, h]

/-! ## Fire-loop lemmas -/

/-- The chaining relation between consecutive invocations: the earlier
handler's return value (if not the `None` sentinel) becomes the first
positional argument of the next invocation; the remaining positional
arguments and the keyword arguments pass through untouched. -/
def ChainRel : (Event × Call) → (Event × Call) → Prop := fun q₁ q₂ =>
  ∃ res, q₁.1.func.run q₁.2.args q₁.2.kwargs = Except.ok res ∧
    q₂.2.args = chainStep q₁.2.args res ∧ q₂.2.kwargs = q₁.2.kwargs

theorem fireLoop_ok_spec :
    ∀ (hs : List Event) (args : List Value) (kw : KwArgs)
      (final : List Value) (calls : List Call),
      fireLoop hs args kw = (Except.ok final, calls) →
      calls.map Call.funcId = hs.map (fun e => e.func.id)
      ∧ (∀ c ∈ calls, c.args.drop 1 = args.drop 1 ∧ c.kwargs = kw)
      ∧ final.drop 1 = args.drop 1
      ∧ (∀ c, calls.head? = some c → c.args = args)
      ∧ List.Chain' ChainRel (hs.zip calls)
      ∧ (args ≠ [] → final ≠ []) := by
  intro hs
  induction hs with
  | nil =>
    intro args kw final calls h
    simp only [fireLoop, Prod.mk.injEq] at h
    obtain ⟨h1, h2⟩ := h
    cases h1
    subst h2
    simp
  | cons hd tl ih =>
    intro args kw final calls h
    rcases hrun : hd.func.run args kw with e' | res
    · simp only [fireLoop, hrun, Prod.mk.injEq] at h
      exact absurd h.1 (by simp)
    · rcases hrec : fireLoop tl (chainStep args res) kw with ⟨res2, calls2⟩
      simp only [fireLoop, hrun, hrec, Prod.mk.injEq] at h
      obtain ⟨h1, h2⟩ := h
      subst h1
      subst h2
      obtain ⟨ihmap, ihall, ihdrop, ihhead, ihchain, ihne⟩ :=
        ih (chainStep args res) kw final calls2 hrec
      refine ⟨by simp [ihmap], ?_, ?_, ?_, ?_, ?_⟩
      · intro c hc
        rcases List.mem_cons.mp hc with hc' | hc'
        · subst hc'
          exact ⟨rfl, rfl⟩
        · obtain ⟨hd1, hd2⟩ := ihall c hc'
          exact ⟨hd1.trans (chainStep_drop args res), hd2⟩
      · exact ihdrop.trans (chainStep_drop args res)
      · intro c hc
        simp at hc
        rw [← hc]
      · rw [List.zip_cons_cons]
        refine List.chain'_cons'.mpr ⟨?_, ihchain⟩
        intro q hq
        rcases tl with _ | ⟨t0, tl'⟩
        · simp at hq
        · rcases calls2 with _ | ⟨c0, cs⟩
          · simp at hq
          · simp at hq
            subst hq
            refine ⟨res, hrun, ?_, ?_⟩
            · exact ihhead c0 rfl
            · exact (ihall c0 (by simp)).2
      · intro hargs
        exact ihne (chainStep_ne_nil args res hargs)

theorem fireLoop_error_spec :
    ∀ (hs : List Event) (args : List Value) (kw : KwArgs)
      (e : PyErr) (calls : List Call),
      fireLoop hs args kw = (Except.error e, calls) →
      calls ≠ []
      ∧ calls.length ≤ hs.length
      ∧ calls.map Call.funcId = (hs.take calls.length).map (fun ev => ev.func.id)
      ∧ ∃ c hf, calls.getLast? = some c
          ∧ hs.get? (calls.length - 1) = some hf
          ∧ hf.func.run c.args c.kwargs = Except.error e := by
  intro hs
  induction hs with
  | nil =>
    intro args kw e calls h
    simp only [fireLoop, Prod.mk.injEq] at h
    exact absurd h.1 (by simp)
  | cons hd tl ih =>
    intro args kw e calls h
    rcases hrun : hd.func.run args kw with e' | res
    · simp only [fireLoop, hrun, Prod.mk.injEq] at h
      obtain ⟨h1, h2⟩ := h
      cases h1
      subst h2
      refine ⟨by simp, by simp, by simp, ⟨hd.func.id, args, kw⟩, hd, ?_, ?_, hrun⟩
      · rfl
      · rfl
    · rcases hrec : fireLoop tl (chainStep args res) kw with ⟨res2, calls2⟩
      simp only [fireLoop, hrun, hrec, Prod.mk.injEq] at h
      obtain ⟨h1, h2⟩ := h
      subst h1
      subst h2
      obtain ⟨hne, hlen, hmap, c, hf, hlast, hget, hrunf⟩ :=
        ih (chainStep args res) kw e calls2 hrec
      obtain ⟨c2, cs, rfl⟩ := List.exists_cons_of_ne_nil hne
      refine ⟨by simp, by simpa using Nat.succ_le_succ hlen, ?_,
        c, hf, ?_, ?_, hrunf⟩
      · simp only [List.length_cons, List.take_succ_cons, List.map_cons,
          List.map_cons] at hmap ⊢
        simp [hmap]
      · rw [List.getLast?_cons_cons]
        exact hlast
      · simpa using hget

theorem fireLoop_all_none (hs : List Event) (args : List Value) (kw : KwArgs)
    (h : ∀ e ∈ hs, e.func.run args kw = Except.ok none) :
    fireLoop hs args kw =
      (Except.ok args, hs.map (fun e => ⟨e.func.id, args, kw⟩)) := by
  induction hs with
  | nil => rfl
  | cons hd tl ih =>
    have hhd := h hd (by simp)
    simp only [fireLoop, hhd, chainStep]
    rw [ih (fun e he => h e (by simp [he]))]
    simp

theorem fireLoop_append_ok (xs : List Event) :
    ∀ (ys : List Event) (args mid : List Value) (kw : KwArgs)
      (calls : List Call),
      fireLoop xs args kw = (Except.ok mid, calls) →
      fireLoop (xs ++ ys) args kw =
        ((fireLoop ys mid kw).1, calls ++ (fireLoop ys mid kw).2) := by
  induction xs with
  | nil =>
    intro ys args mid kw calls h
    simp only [fireLoop, Prod.mk.injEq] at h
    obtain ⟨h1, h2⟩ := h
    cases h1
    subst h2
    simp
  | cons hd tl ih =>
    intro ys args mid kw calls h
    rcases hrun : hd.func.run args kw with e' | res
    · simp only [fireLoop, hrun, Prod.mk.injEq] at h
      exact absurd h.1 (by simp)
    · rcases hrec : fireLoop tl (chainStep args res) kw with ⟨res2, calls2⟩
      simp only [fireLoop, hrun, hrec, Prod.mk.injEq] at h
      obtain ⟨h1, h2⟩ := h
      subst h1
      subst h2
      simp only [List.cons_append, fireLoop, hrun, List.append_eq]
      rw [ih ys (chainStep args res) mid kw calls2 hrec]

/-! ## Concrete sample objects (used by witnesses and counterexamples) -/

/-- The event type `'e'` used in concrete examples. -/
def kE : EventTypeId := .custom "e"

/-- A handler that returns the value `5`. -/
def fH1 : Func := ⟨1, "h1", fun _ _ => .ok (some (.int 5))⟩

/-- A handler that returns nothing (`None`). -/
def fH2 : Func := ⟨2, "h2", fun _ _ => .ok none⟩

/-- A handler that raises an exception. -/
def fBoom : Func := ⟨3, "boom", fun _ _ => .error (.exc "boom")⟩

/-- Another silent handler, used for same-priority removal examples. -/
def fH4 : Func := ⟨4, "h4", fun _ _ => .ok none⟩

/-- The removal loop leaves the list untouched when no record's callback has
the sought identity. -/
theorem iterRemoveAux_no_match (f : Func) (l : List Event)
    (hl : ∀ e ∈ l, e.func.id ≠ f.id) :
    ∀ (n i : Nat), iterRemoveAux f n l i = l := by
  intro n
  induction n with
  | zero =>
    intro i
    rfl
  | succ n ih =>
    intro i
    simp only [iterRemoveAux]
    by_cases h : i < l.length
    · rw [dif_pos h]
      have hid : ((l.get ⟨i, h⟩).func.id == f.id) = false := by
        simpa using hl _ (l.get_mem i h)
      simp only [hid, Bool.false_eq_true, if_false]
      exact ih (i + 1)
    · rw [dif_neg h]

/-! ## Claim theorems -/

/-- C7: firing an event type unknown to the registry raises no error and
invokes no handler; it returns the original first positional argument when
one was supplied (and nothing — the falsy empty tuple — when `args` is
empty), leaving the registry untouched. -/
theorem C7_fire_unknown_noop (r : Registry) (k : EventTypeId)
    (args : List Value) (kw : KwArgs) (h : findEntry r k = none) :
    fire_event r k args kw = (Except.ok args.head?, [], r)
    ∧ (args = [] → (fire_event r k args kw).1 = Except.ok none)
    ∧ (∀ a rest, args = a :: rest →
        (fire_event r k args kw).1 = Except.ok (some a)) := by
  have hmain : fire_event r k args kw = (Except.ok args.head?, [], r) := by
    simp [fire_event, h]
  refine ⟨hmain, ?_, ?_⟩
  · intro ha
    subst ha
    rw [hmain]
    rfl
  · intro a rest ha
    subst ha
    rw [hmain]
    rfl

theorem C7_witness :
    findEntry [] kE = none
    ∧ fire_event [] kE [Value.int 1] [] =
        (Except.ok (some (Value.int 1)), [], ([] : Registry)) :=
  ⟨rfl, (C7_fire_unknown_noop [] kE [Value.int 1] [] rfl).1⟩

/-- C9: `remove_event_handlers` deletes the entire entry for the event type,
so a subsequent strict lookup fails with the KeyError naming it; other keys
are untouched, and the call is a no-op when the event type is unknown. -/
theorem C9_remove_all_handlers (r : Registry) (k : EventTypeId)
    (hnd : keysNodup r) :
    findEntry (remove_event_handlers r k) k = none
    ∧ (get_events (remove_event_handlers r k) k).1 =
        Except.error (.keyError ("No such event " ++ keyStr k))
    ∧ (∀ k', k' ≠ k →
        findEntry (remove_event_handlers r k) k' = findEntry r k')
    ∧ (findEntry r k = none → remove_event_handlers r k = r) := by
  have h1 : findEntry (remove_event_handlers r k) k = none :=
    findEntry_eraseEntry_self r k hnd
  refine ⟨h1, ?_, ?_, ?_⟩
  · simp [get_events, h1]
  · intro k' hk'
    exact findEntry_eraseEntry_ne r k k' hk'
  · intro h
    exact eraseEntry_not_mem r k h

theorem C9_witness :
    keysNodup [(kE, [mkEvent kE fH1 128])]
    ∧ (get_events
        (remove_event_handlers [(kE, [mkEvent kE fH1 128])] kE) kE).1 =
      Except.error (.keyError ("No such event " ++ keyStr kE)) :=
  ⟨by simp [keysNodup, regKeys],
   (C9_remove_all_handlers [(kE, [mkEvent kE fH1 128])] kE
      (by simp [keysNodup, regKeys])).2.1⟩

/-- C5: registering a callback already present under the event type fails
with the ValueError whose message names the callback's `__name__` and the
event type, and leaves the registry (hence the handler list: same records,
same order) unchanged. -/
theorem C5_duplicate_registration (r : Registry) (k : EventTypeId)
    (f : Func) (p : Int) (l : List Event)
    (hfind : findEntry r k = some l)
    (hdup : ∃ e ∈ l, e.func.id = f.id) :
    add_event_handler r k f p =
      (Except.error (.valueError (f.name ++
        " has already been registered as event listener under name " ++
        keyStr k)), r)
    ∧ findEntry (add_event_handler r k f p).2 k = some l := by
  have hany : l.any (fun e => e.func.id == f.id) = true := by
    obtain ⟨e, he, hid⟩ := hdup
    exact List.any_eq_true.mpr ⟨e, he, by simp [hid]⟩
  have hek : ensureKey r k = (l, r) := ensureKey_some r k l hfind
  constructor
  · simp [add_event_handler, hek, hany]
  · simp [add_event_handler, hek, hany, hfind]

theorem C5_witness :
    add_event_handler [(kE, [mkEvent kE fH1 128])] kE fH1 64 =
      (Except.error (.valueError (fH1.name ++
        " has already been registered as event listener under name " ++
        keyStr kE)), [(kE, [mkEvent kE fH1 128])]) :=
  (C5_duplicate_registration [(kE, [mkEvent kE fH1 128])] kE fH1 64
    [mkEvent kE fH1 128] rfl ⟨mkEvent kE fH1 128, by simp, rfl⟩).1

/-- C6 as frozen ("fails iff never registered") is false at a concrete
history: `'e'` *has* been registered — the registration succeeds — yet after
`remove_event_handlers` the strict lookup fails. -/
theorem C6_counterexample :
    (add_event_handler [] kE fH1 128).1 = Except.ok (mkEvent kE fH1 128)
    ∧ (get_events
        (remove_event_handlers (add_event_handler [] kE fH1 128).2 kE)
        kE).1 =
      Except.error (.keyError ("No such event " ++ keyStr kE)) :=
  ⟨rfl, rfl⟩

/-- C6 amended: `get_events` fails — with the KeyError naming the event
type — exactly when the event type is *not currently present* in the registry
mapping (presence, not historical registration: `remove_event_handlers`
removes presence, and the defaultdict access in `remove_event_handler`
creates it); a present event type is returned sorted without error, and in
particular a present event type with zero remaining handlers yields the empty
sequence, not an error. -/
theorem C6_lookup_strict (r : Registry) (k : EventTypeId) :
    ((∃ msg, (get_events r k).1 = Except.error (.keyError msg)) ↔
      findEntry r k = none)
    ∧ (findEntry r k = none →
        (get_events r k).1 =
          Except.error (.keyError ("No such event " ++ keyStr k)))
    ∧ (∀ l, findEntry r k = some l →
        (get_events r k).1 = Except.ok (sortDesc l))
    ∧ (findEntry r k = some [] → (get_events r k).1 = Except.ok []) := by
  cases h : findEntry r k with
  | none =>
    refine ⟨⟨fun _ => rfl, fun _ => ⟨"No such event " ++ keyStr k, ?_⟩⟩,
      fun _ => ?_, ?_, ?_⟩
    · simp [get_events, h]
    · simp [get_events, h]
    · intro l hl
      cases hl
    · intro hl
      cases hl
  | some l =>
    refine ⟨⟨?_, ?_⟩, ?_, ?_, ?_⟩
    · rintro ⟨msg, hmsg⟩
      rw [show (get_events r k).1 = Except.ok (sortDesc l) by
        simp [get_events, h]] at hmsg
      cases hmsg
    · intro hn
      cases hn
    · intro hn
      cases hn
    · intro l' hl'
      cases hl'
      simp [get_events, h]
    · intro hl
      cases hl
      simp [get_events, h, sortDesc]

/-- C3 as frozen is false at a concrete input: removing a callback for a
never-registered event type *creates* an (empty) entry for it — the registry
changes, and a later strict lookup succeeds with `[]` instead of failing. -/
theorem C3_counterexample :
    remove_event_handler [] kE fH1 = [(kE, [])]
    ∧ (get_events (remove_event_handler [] kE fH1) kE).1 = Except.ok []
    ∧ remove_event_handler [] kE fH1 ≠ ([] : Registry) := by
  refine ⟨rfl, rfl, ?_⟩
  intro h
  rw [show remove_event_handler [] kE fH1 = [(kE, [])] from rfl] at h
  cases h

/-- C3 amended: when no record under the event type has the callback's
identity, `remove_event_handler` removes nothing and raises no error; if the
event type already exists the registry is entirely unchanged, but if it is
unknown the defaultdict access creates an empty entry for it — after which
the strict lookup returns `[]` (no error), every other key is untouched, and
firing it still invokes nothing and returns its first positional argument. -/
theorem C3_remove_no_match (r : Registry) (k : EventTypeId) (f : Func) :
    (∀ l, findEntry r k = some l → (∀ e ∈ l, e.func.id ≠ f.id) →
      remove_event_handler r k f = r)
    ∧ (findEntry r k = none →
        remove_event_handler r k f = setEntry r k []
        ∧ findEntry (remove_event_handler r k f) k = some []
        ∧ (get_events (remove_event_handler r k f) k).1 = Except.ok []
        ∧ (∀ k', k' ≠ k →
            findEntry (remove_event_handler r k f) k' = findEntry r k')
        ∧ ∀ args kw, fire_event (remove_event_handler r k f) k args kw =
            (Except.ok args.head?, [], remove_event_handler r k f)) := by
  constructor
  · intro l hfind hno
    simp only [remove_event_handler, ensureKey_some r k l hfind]
    rw [show iterRemove f l = l from iterRemoveAux_no_match f l hno l.length 0]
    exact setEntry_findEntry_eq r k l hfind
  · intro hfind
    have hrm : remove_event_handler r k f = setEntry r k [] := by
      simp only [remove_event_handler, ensureKey_none r k hfind]
      rw [show iterRemove f ([] : List Event) = [] from rfl]
      exact setEntry_findEntry_eq _ k [] (findEntry_setEntry_self r k [])
    have hf : findEntry (remove_event_handler r k f) k = some [] := by
      rw [hrm]
      exact findEntry_setEntry_self r k []
    refine ⟨hrm, hf, ?_, ?_, ?_⟩
    · simp [get_events, hf, sortDesc]
    · intro k' hk'
      rw [hrm]
      exact findEntry_setEntry_ne r k k' [] hk'
    · intro args kw
      have hset : setEntry (remove_event_handler r k f) k [] =
          remove_event_handler r k f := setEntry_findEntry_eq _ k [] hf
      simp [fire_event, hf, get_events, fireLoop, sortDesc, hset]

theorem C3_witness :
    remove_event_handler [(kE, [mkEvent kE fH1 128])] kE fH2 =
      [(kE, [mkEvent kE fH1 128])] :=
  (C3_remove_no_match [(kE, [mkEvent kE fH1 128])] kE fH2).1
    [mkEvent kE fH1 128] rfl (by
      intro e he
      simp at he
      rw [he]
      decide)

/-- C4 is violated by the code: with records for `fH4` then `fH2` (both
priority 128) under `'e'`, removing `fH2`'s callback matches the `fH2` record
by identity, but `list.remove` compares records by `Event.__eq__` — priority
only — so it deletes the *first* record of that priority: the `fH4` record.
The `fH2` record survives. -/
theorem C4_wrong_record_removed :
    remove_event_handler
        [(kE, [mkEvent kE fH4 128, mkEvent kE fH2 128])] kE fH2 =
      [(kE, [mkEvent kE fH2 128])] := rfl

/-- C1: on a registered event type with at least one positional argument, if
every handler invocation succeeds, `fire_event` invokes the handlers exactly
in sorted-lookup order; each invocation keeps the positional arguments beyond
the first and the keyword arguments unchanged; consecutive invocations are
linked by the chaining rule (a non-sentinel return value replaces the first
positional argument of the next call); and `fire_event` returns the first
element of the final argument tuple. -/
theorem C1_fire_order_chaining (r : Registry) (k : EventTypeId) (a : Value)
    (rest : List Value) (kw : KwArgs) (l : List Event) (final : List Value)
    (calls : List Call)
    (hfind : findEntry r k = some l)
    (hrun : fireLoop (sortDesc l) (a :: rest) kw = (Except.ok final, calls)) :
    (fire_event r k (a :: rest) kw).1 = Except.ok final.head?
    ∧ (fire_event r k (a :: rest) kw).2.1 = calls
    ∧ calls.map Call.funcId = (sortDesc l).map (fun ev => ev.func.id)
    ∧ (∀ c ∈ calls, c.args.drop 1 = rest ∧ c.kwargs = kw)
    ∧ (∀ c, calls.head? = some c → c.args = a :: rest)
    ∧ List.Chain' ChainRel ((sortDesc l).zip calls)
    ∧ ∃ v, final.head? = some v
        ∧ (fire_event r k (a :: rest) kw).1 = Except.ok (some v) := by
  obtain ⟨hmap, hall, hdrop, hhead, hchain, hne⟩ :=
    fireLoop_ok_spec (sortDesc l) (a :: rest) kw final calls hrun
  have hfire : fire_event r k (a :: rest) kw =
      (Except.ok final.head?, calls, setEntry r k (sortDesc l)) := by
    simp [fire_event, hfind, get_events, hrun]
  have hfinal : final ≠ [] := hne (by simp)
  obtain ⟨v, vs, rfl⟩ := List.exists_cons_of_ne_nil hfinal
  refine ⟨by rw [hfire], by rw [hfire], hmap, ?_, hhead, hchain,
    v, rfl, by rw [hfire]; rfl⟩
  intro c hc
  obtain ⟨h1, h2⟩ := hall c hc
  exact ⟨by simpa using h1, h2⟩

theorem C1_witness :
    (fire_event [(kE, [mkEvent kE fH1 128, mkEvent kE fH2 64])] kE
        [Value.int 1, Value.str "ctx"] []).1 = Except.ok (some (Value.int 5))
    ∧ (fire_event [(kE, [mkEvent kE fH1 128, mkEvent kE fH2 64])] kE
        [Value.int 1, Value.str "ctx"] []).2.1 =
      [⟨1, [Value.int 1, Value.str "ctx"], []⟩,
       ⟨2, [Value.int 5, Value.str "ctx"], []⟩] := by
  obtain ⟨h1, h2, -, -, -, -, v, hv, hfire⟩ :=
    C1_fire_order_chaining [(kE, [mkEvent kE fH1 128, mkEvent kE fH2 64])] kE
      (Value.int 1) [Value.str "ctx"] []
      [mkEvent kE fH1 128, mkEvent kE fH2 64]
      [Value.int 5, Value.str "ctx"]
      [⟨1, [Value.int 1, Value.str "ctx"], []⟩,
       ⟨2, [Value.int 5, Value.str "ctx"], []⟩]
      rfl rfl
  exact ⟨h1, h2⟩

/-- C8: when some handler raises during a fire, the exception propagates
unmodified to the caller of `fire_event`, the invoked handlers are exactly a
prefix of the sorted order ending at the failing one (handlers ordered after
it are not invoked), and — the stored callbacks being distinct — no handler
is invoked twice in the fire call. -/
theorem C8_handler_exception (r : Registry) (k : EventTypeId)
    (args : List Value) (kw : KwArgs) (e : PyErr) (calls : List Call)
    (r' : Registry) (l : List Event)
    (hfind : findEntry r k = some l)
    (hnodup : (l.map (fun ev => ev.func.id)).Nodup)
    (h : fire_event r k args kw = (Except.error e, calls, r')) :
    calls ≠ []
    ∧ calls.length ≤ (sortDesc l).length
    ∧ calls.map Call.funcId =
        ((sortDesc l).take calls.length).map (fun ev => ev.func.id)
    ∧ (calls.map Call.funcId).Nodup
    ∧ ∃ c hf, calls.getLast? = some c
        ∧ (sortDesc l).get? (calls.length - 1) = some hf
        ∧ hf.func.run c.args c.kwargs = Except.error e := by
  rcases hL : fireLoop (sortDesc l) args kw with ⟨res, cs⟩
  rcases res with e0 | fa
  · have hfe : fire_event r k args kw =
        (Except.error e0, cs, setEntry r k (sortDesc l)) := by
      simp [fire_event, hfind, get_events, hL]
    rw [hfe] at h
    simp only [Prod.mk.injEq, Except.error.injEq] at h
    obtain ⟨he, hc, -⟩ := h
    rw [he, hc] at hL
    obtain ⟨hne, hlen, hmap, c, hf, hlast, hget, hrunf⟩ :=
      fireLoop_error_spec (sortDesc l) args kw e calls hL
    refine ⟨hne, hlen, hmap, ?_, c, hf, hlast, hget, hrunf⟩
    have hperm : ((sortDesc l).map (fun ev => ev.func.id)).Perm
        (l.map (fun ev => ev.func.id)) := (sortDesc_perm l).map _
    have hnodup2 : ((sortDesc l).map (fun ev => ev.func.id)).Nodup :=
      (hperm.nodup_iff).mpr hnodup
    have hsub : (((sortDesc l).take calls.length).map
        (fun ev => ev.func.id)).Sublist
        ((sortDesc l).map (fun ev => ev.func.id)) :=
      ((sortDesc l).take_sublist calls.length).map _
    rw [hmap]
    exact hsub.nodup hnodup2
  · have hfe : fire_event r k args kw =
        (Except.ok fa.head?, cs, setEntry r k (sortDesc l)) := by
      simp [fire_event, hfind, get_events, hL]
    rw [hfe] at h
    simp at h

theorem C8_witness :
    ([⟨1, [Value.int 1], ([] : KwArgs)⟩,
      ⟨3, [Value.int 5], ([] : KwArgs)⟩] : List Call) ≠ []
    ∧ (([⟨1, [Value.int 1], ([] : KwArgs)⟩,
        ⟨3, [Value.int 5], ([] : KwArgs)⟩] : List Call).map Call.funcId).Nodup := by
  obtain ⟨h1, -, -, h4, -⟩ :=
    C8_handler_exception
      [(kE, [mkEvent kE fH1 128, mkEvent kE fBoom 100, mkEvent kE fH2 50])]
      kE [Value.int 1] [] (.exc "boom")
      [⟨1, [Value.int 1], []⟩, ⟨3, [Value.int 5], []⟩]
      [(kE, [mkEvent kE fH1 128, mkEvent kE fBoom 100, mkEvent kE fH2 50])]
      [mkEvent kE fH1 128, mkEvent kE fBoom 100, mkEvent kE fH2 50]
      rfl (by decide) rfl
  exact ⟨h1, h4⟩

/-- C10 (implicit edge case): fired with *zero* positional arguments on a
registered event type, a handler returning a non-sentinel value makes that
value the first (and only) positional argument of every subsequent handler
invocation, and `fire_event` returns it — even though the caller supplied no
positional argument at all. -/
theorem C10_empty_args_chaining (r : Registry) (k : EventTypeId)
    (l pre post : List Event) (h : Event) (v : Value) (kw : KwArgs)
    (hfind : findEntry r k = some l)
    (hsplit : sortDesc l = pre ++ h :: post)
    (hpre : ∀ e ∈ pre, e.func.run [] kw = Except.ok none)
    (hh : h.func.run [] kw = Except.ok (some v))
    (hpost : ∀ e ∈ post, e.func.run [v] kw = Except.ok none) :
    (fire_event r k [] kw).1 = Except.ok (some v)
    ∧ (fire_event r k [] kw).2.1 =
        pre.map (fun e => ⟨e.func.id, [], kw⟩) ++
          (⟨h.func.id, [], kw⟩ ::
            post.map (fun e => ⟨e.func.id, [v], kw⟩)) := by
  have hloopPre : fireLoop pre [] kw =
      (Except.ok [], pre.map (fun e => ⟨e.func.id, [], kw⟩)) :=
    fireLoop_all_none pre [] kw hpre
  have hloopPost : fireLoop post [v] kw =
      (Except.ok [v], post.map (fun e => ⟨e.func.id, [v], kw⟩)) :=
    fireLoop_all_none post [v] kw hpost
  have hmid : fireLoop (h :: post) [] kw =
      (Except.ok [v], ⟨h.func.id, [], kw⟩ ::
        post.map (fun e => ⟨e.func.id, [v], kw⟩)) := by
    simp only [fireLoop, hh, chainStep, List.drop_nil]
    rw [hloopPost]
  have hloop : fireLoop (sortDesc l) [] kw =
      (Except.ok [v], pre.map (fun e => ⟨e.func.id, [], kw⟩) ++
        (⟨h.func.id, [], kw⟩ ::
          post.map (fun e => ⟨e.func.id, [v], kw⟩))) := by
    rw [hsplit, fireLoop_append_ok pre (h :: post) [] [] kw _ hloopPre, hmid]
  have hfire : fire_event r k [] kw =
      (Except.ok (some v), pre.map (fun e => ⟨e.func.id, [], kw⟩) ++
        (⟨h.func.id, [], kw⟩ ::
          post.map (fun e => ⟨e.func.id, [v], kw⟩)),
        setEntry r k (sortDesc l)) := by
    simp [fire_event, hfind, get_events, hloop]
  exact ⟨by rw [hfire], by rw [hfire]⟩

theorem C10_witness :
    (fire_event [(kE, [mkEvent kE fH1 128, mkEvent kE fH2 64])] kE [] []).1 =
      Except.ok (some (Value.int 5)) := by
  obtain ⟨h1, -⟩ :=
    C10_empty_args_chaining [(kE, [mkEvent kE fH1 128, mkEvent kE fH2 64])]
      kE [mkEvent kE fH1 128, mkEvent kE fH2 64]
      [] [mkEvent kE fH2 64] (mkEvent kE fH1 128) (Value.int 5) []
      rfl rfl
      (by
        intro e he
        simp at he)
      rfl
      (by
        intro e he
        simp at he
        rw [he]
        rfl)
  exact h1

/-! ## Registration histories (stability across interleaved operations) -/

/-- The operations the stability claim quantifies over: registrations and
sorted lookups, in any interleaving. -/
inductive Op : Type
  | register (k : EventTypeId) (f : Func) (p : Int)
  | getSorted (k : EventTypeId)

/-- The registry state reached by one operation (the state after a failed
duplicate registration is the state the raise leaves behind). -/
def applyOp (r : Registry) : Op → Registry
  | .register k f p => (add_event_handler r k f p).2
  | .getSorted k => (get_events r k).2

/-- Run a history of operations left to right. -/
def runOps : Registry → List Op → Registry
  | r, [] => r
  | r, op :: ops => runOps (applyOp r op) ops

/-- Whether `add_event_handler` would succeed in state `r` (no record under
`k` already has `f`'s identity). -/
def regOk (r : Registry) (k : EventTypeId) (f : Func) : Bool :=
  !((findEntry r k).getD []).any (fun e => e.func.id == f.id)

/-- The callback identities in `l` whose record has priority `p`, in list
order. -/
def idsAt (l : List Event) (p : Int) : List Nat :=
  (l.filter (fun e => e.priority == p)).map (fun e => e.func.id)

/-- The callback identities stored under `k` with priority `p`, in stored
order. -/
def prioIds (r : Registry) (k : EventTypeId) (p : Int) : List Nat :=
  idsAt ((findEntry r k).getD []) p

/-- The callback identities of the *successful* registrations for key `k` at
priority `p`, in the order the history performs them. -/
def regTrace : Registry → List Op → EventTypeId → Int → List Nat
  | _, [], _, _ => []
  | r, .register k' f p' :: ops, k, p =>
    (if k' = k ∧ p' = p ∧ regOk r k' f then [f.id] else []) ++
      regTrace (applyOp r (.register k' f p')) ops k p
  | r, .getSorted k' :: ops, k, p =>
    regTrace (applyOp r (.getSorted k')) ops k p

theorem idsAt_append (l₁ l₂ : List Event) (p : Int) :
    idsAt (l₁ ++ l₂) p = idsAt l₁ p ++ idsAt l₂ p := by
  simp [idsAt, List.filter_append]

theorem idsAt_sortDesc (l : List Event) (p : Int) :
    idsAt (sortDesc l) p = idsAt l p := by
  simp [idsAt, sortDesc_filter]

theorem idsAt_single (k : EventTypeId) (f : Func) (p' p : Int) :
    idsAt [mkEvent k f p'] p = if p' = p then [f.id] else [] := by
  by_cases hp : p' = p
  · simp [idsAt, List.filter_cons, mkEvent, hp]
  · simp [idsAt, List.filter_cons, mkEvent, hp]

/-- Effect of one registration on a priority class of stored ids. -/
theorem prioIds_add (r : Registry) (k' k : EventTypeId) (f : Func)
    (p' p : Int) :
    prioIds (add_event_handler r k' f p').2 k p =
      prioIds r k p ++
        (if k' = k ∧ p' = p ∧ regOk r k' f then [f.id] else []) := by
  rcases hfind : findEntry r k' with - | l
  · have hek := ensureKey_none r k' hfind
    have hro : regOk r k' f = true := by
      simp [regOk, hfind]
    have hreg : (add_event_handler r k' f p').2 =
        setEntry (setEntry r k' []) k' [mkEvent k' f p'] := by
      simp [add_event_handler, hek]
    by_cases hk : k' = k
    · subst hk
      rw [hreg, prioIds, findEntry_setEntry_self, prioIds, hfind]
      simp only [Option.getD_some, Option.getD_none]
      rw [idsAt_single]
      by_cases hp : p' = p
      · simp [idsAt, hp, hro]
      · simp [idsAt, hp, hro]
    · have hne : k ≠ k' := fun hh => hk hh.symm
      rw [hreg, prioIds, findEntry_setEntry_ne _ _ _ _ hne,
        findEntry_setEntry_ne _ _ _ _ hne, prioIds]
      simp [hk]
  · have hek := ensureKey_some r k' l hfind
    by_cases hdup : l.any (fun e => e.func.id == f.id)
    · have hro : regOk r k' f = false := by
        simp only [regOk, hfind, Option.getD_some]
        simp [hdup]
      have hreg : (add_event_handler r k' f p').2 = r := by
        simp [add_event_handler, hek, hdup]
      rw [hreg]
      simp [hro]
    · have hro : regOk r k' f = true := by
        simp only [regOk, hfind, Option.getD_some]
        simp [hdup]
      have hreg : (add_event_handler r k' f p').2 =
          setEntry r k' (l ++ [mkEvent k' f p']) := by
        simp [add_event_handler, hek, hdup]
      by_cases hk : k' = k
      · subst hk
        rw [hreg, prioIds, findEntry_setEntry_self, prioIds, hfind]
        simp only [Option.getD_some]
        rw [idsAt_append, idsAt_single]
        by_cases hp : p' = p
        · simp [hp, hro]
        · simp [hp, hro]
      · have hne : k ≠ k' := fun hh => hk hh.symm
        rw [hreg, prioIds, findEntry_setEntry_ne _ _ _ _ hne, prioIds]
        simp [hk]

/-- A sorted lookup never changes any priority class of stored ids (the
in-place sort is stable). -/
theorem prioIds_get_events (r : Registry) (k' k : EventTypeId) (p : Int) :
    prioIds (get_events r k').2 k p = prioIds r k p := by
  rcases hfind : findEntry r k' with - | l
  · simp [get_events, hfind]
  · have hreg : (get_events r k').2 = setEntry r k' (sortDesc l) := by
      simp [get_events, hfind]
    by_cases hk : k' = k
    · subst hk
      rw [hreg, prioIds, findEntry_setEntry_self, prioIds, hfind]
      simp only [Option.getD_some]
      exact idsAt_sortDesc l p
    · have hne : k ≠ k' := fun hh => hk hh.symm
      rw [hreg, prioIds, findEntry_setEntry_ne _ _ _ _ hne, prioIds]

/-- Invariant: along any history, the stored order of each priority class is
the base state's class followed by the successful registrations in history
order. -/
theorem runOps_prioIds (ops : List Op) :
    ∀ (r : Registry) (k : EventTypeId) (p : Int),
      prioIds (runOps r ops) k p = prioIds r k p ++ regTrace r ops k p := by
  induction ops with
  | nil =>
    intro r k p
    simp [runOps, regTrace]
  | cons op ops ih =>
    intro r k p
    cases op with
    | register k' f p' =>
      rw [runOps, regTrace, ih,
        show applyOp r (Op.register k' f p') =
          (add_event_handler r k' f p').2 from rfl,
        prioIds_add, List.append_assoc]
    | getSorted k' =>
      rw [runOps, regTrace, ih]
      rw [show applyOp r (Op.getSorted k') = (get_events r k').2 from rfl,
        prioIds_get_events]

/-- C2: along any history of registrations and sorted lookups starting from
the empty registry, for an event type present in the final state,
`get_events` returns all of its stored records sorted by non-increasing
priority, and the sort is stable: within each priority class the returned
order is exactly the order of the successful registrations of that class
along the whole history — ties keep registration order, across repeated
sorted lookups interleaved with further registrations. -/
theorem C2_get_sorted_stable (ops : List Op) (k : EventTypeId)
    (l : List Event) (hfind : findEntry (runOps [] ops) k = some l) :
    (get_events (runOps [] ops) k).1 = Except.ok (sortDesc l)
    ∧ (sortDesc l).Perm l
    ∧ SortedDesc (sortDesc l)
    ∧ ∀ p, idsAt (sortDesc l) p = regTrace [] ops k p := by
  refine ⟨by simp [get_events, hfind], sortDesc_perm l, sortDesc_sorted l, ?_⟩
  intro p
  rw [idsAt_sortDesc]
  have h := runOps_prioIds ops [] k p
  rw [prioIds, hfind, Option.getD_some] at h
  rw [h, prioIds, findEntry_nil]
  simp [idsAt]

/-- A concrete interleaved history: register `fH1` at priority 128, perform a
sorted lookup (an in-place re-sort), then register `fH2` at the same
priority. -/
def opsW : List Op :=
  [.register kE fH1 128, .getSorted kE, .register kE fH2 128]

theorem C2_witness :
    (get_events (runOps [] opsW) kE).1 =
      Except.ok (sortDesc [mkEvent kE fH1 128, mkEvent kE fH2 128])
    ∧ idsAt (sortDesc [mkEvent kE fH1 128, mkEvent kE fH2 128]) 128 =
      regTrace [] opsW kE 128 := by
  obtain ⟨h1, -, -, h4⟩ :=
    C2_get_sorted_stable opsW kE [mkEvent kE fH1 128, mkEvent kE fH2 128] rfl
  exact ⟨h1, h4 128⟩

theorem C6_witness :
    (get_events [(kE, ([] : List Event))] kE).1 = Except.ok []
    ∧ (get_events [] kE).1 =
        Except.error (.keyError ("No such event " ++ keyStr kE)) :=
  ⟨(C6_lookup_strict [(kE, ([] : List Event))] kE).2.2.2 rfl,
   (C6_lookup_strict [] kE).2.1 rfl⟩
